import Mathlib

/-!
Verification of the quote-resolution-and-geometry engine of the
annotation-tester repository (the `PDFViewer` component).

The TypeScript source is shallowly embedded below:
* page text is a `List Char` (the concatenation of the text-layer spans);
* a text-layer span is a `Frag`: its literal text plus an optional
  "rectangles for a character sub-range" capability standing for the DOM
  `Range.getClientRects` call on the span's first text node (`none` models a
  span with no text node, i.e. `span.firstChild === null`);
* the per-page overlay record `Record<number, HighlightOverlay[]>` is an
  association list `Store` updated with JS object-spread semantics;
* `fullText.indexOf(exact, searchStart)` and the `while` scan of
  `computeOverlaysForPage` are embedded as structurally recursive functions
  driven by an explicit fuel that is large enough to never run out before the
  loop guard fails, so every definition evaluates by `decide`/`rfl`.
-/

/-- A DOM client rectangle as returned by `Range.getClientRects`
(viewport-relative `top`/`left` plus `width`/`height`). -/
structure Rect where
  top : Int
  left : Int
  width : Int
  height : Int
deriving DecidableEq, Repr

/-- The `HighlightOverlay` record: a page-relative rectangle tagged with a display
color. -/
structure Overlay where
  top : Int
  left : Int
  width : Int
  height : Int
  color : String
deriving DecidableEq, Repr

/-- One entry of the `spanOffsets` table: the half-open range of logical
text offsets contributed by one span (`start`/`end` in the source; `end` is a
Lean keyword, so the upper bound is called `stop`). -/
structure SpanOff where
  start : Nat
  stop : Nat
deriving DecidableEq, Repr

/-- A text-layer span: its literal text content (`span.textContent ?? ''`)
and, when the span has a first text node, the capability of producing client
rectangles for an intra-span character range (`document.createRange` +
`setStart`/`setEnd` + `getClientRects`).  `rects = none` models
`span.firstChild === null`. -/
structure Frag where
  text : List Char
  rects : Option (Nat → Nat → List Rect)

/-- One selector of a Hypothesis annotation target. -/
structure Selector where
  type : String
  exact : Option (List Char)

/-- One target of a Hypothesis annotation. -/
structure Target where
  source : String
  selector : Option (List Selector)

/-- A `HypothesisAnnotation` record (the fields the engine reads). -/
structure Annot where
  id : String
  uri : String
  tags : Option (List String)
  target : Option (List Target)

/-- The rendered state of one page as `computeOverlaysForPage` observes it:
`none` stands for a missing page element (`pageRefs` has no entry) and
`textLayer = none` for a missing `.react-pdf__Page__textContent` element;
`pageTop`/`pageLeft` are the page bounding box origin
(`pageDiv.getBoundingClientRect()`). -/
structure PageData where
  textLayer : Option (List Frag)
  pageTop : Int
  pageLeft : Int

/-- The `pageOverlays` record, `Record<number, HighlightOverlay[]>`, as an
insertion-ordered association list with unique keys. -/
abbrev Store := List (Nat × List Overlay)

/-- The `COLOR_MAP` lookup table. -/
def COLOR_MAP (name : String) : Option String :=
  if name = "yellow" then some "rgba(255, 235, 59, 0.35)"
  else if name = "red" then some "rgba(244, 67, 54, 0.3)"
  else if name = "green" then some "rgba(76, 175, 80, 0.3)"
  else if name = "blue" then some "rgba(33, 150, 243, 0.3)"
  else if name = "purple" then some "rgba(156, 39, 176, 0.3)"
  else none

/-- The `getAnnotationColor` function: first tag of the form `color:<name>` wins, unknown
or missing names fall back to yellow. -/
def getAnnotColor (a : Annot) : String :=
  match (a.tags.getD []).find? (fun t => t.startsWith "color:") with
  | some tag => (COLOR_MAP (((tag.splitOn ":").getD 1 ""))).getD "rgba(255, 235, 59, 0.35)"
  | none => "rgba(255, 235, 59, 0.35)"

/-- Inner loop of `getAnnotationExact` over one target's selector list:
return the first selector whose `type` is `'TextQuoteSelector'` and whose
`exact` is truthy (present and non-empty). -/
def findExactInSelectors : List Selector → Option (List Char)
  | [] => none
  | s :: rest =>
    match s.exact with
    | some e =>
      if s.type = "TextQuoteSelector" ∧ e ≠ [] then some e
      else findExactInSelectors rest
    | none => findExactInSelectors rest

/-- Outer loop of `getAnnotationExact` over the target list (a target with
no `selector` array is skipped). -/
def findExactInTargets : List Target → Option (List Char)
  | [] => none
  | t :: rest =>
    match t.selector with
    | none => findExactInTargets rest
    | some sels =>
      match findExactInSelectors sels with
      | some e => some e
      | none => findExactInTargets rest

/-- The `getAnnotationExact` function: the quotation of an annotation, when it has one. -/
def getAnnotExact (a : Annot) : Option (List Char) :=
  match a.target with
  | none => none
  | some ts => findExactInTargets ts

/-- The relation `T[i : i+|Q|] = Q`: the quotation `Q` occurs in `T` at position `i`. -/
def matchesAt (T Q : List Char) (i : Nat) : Prop :=
  (T.drop i).take Q.length = Q

instance (T Q : List Char) (i : Nat) : Decidable (matchesAt T Q i) :=
  inferInstanceAs (Decidable ((T.drop i).take Q.length = Q))

/-- A match of `Q` at `i` that fits inside `T` (for non-empty `Q` this is
equivalent to `matchesAt`). -/
def hitAt (T Q : List Char) (i : Nat) : Prop :=
  i + Q.length ≤ T.length ∧ matchesAt T Q i

instance (T Q : List Char) (i : Nat) : Decidable (hitAt T Q i) :=
  inferInstanceAs (Decidable (_ ∧ _))

/-- Fuel-driven body of `String.prototype.indexOf(search, from)`: try the
candidate positions `i, i+1, …` in order and return the first where `Q`
occurs within bounds. -/
def indexOfFromGo (T Q : List Char) : Nat → Nat → Option Nat
  | _, 0 => none
  | i, fuel + 1 =>
    if i + Q.length ≤ T.length then
      if (T.drop i).take Q.length = Q then some i
      else indexOfFromGo T Q (i + 1) fuel
    else none

/-- The call `fullText.indexOf(exact, searchStart)`: the least position `≥ i` at
which `Q` occurs in `T` (`none` for JavaScript's `-1`).  The fuel
`T.length + 1 - i` is enough for the position to pass the bound
`T.length` before it runs out. -/
def indexOfFrom (T Q : List Char) (i : Nat) : Option Nat :=
  indexOfFromGo T Q i (T.length + 1 - i)

/-- Fuel-driven body of the occurrence-scan `while` loop of
`computeOverlaysForPage`: while `searchStart < fullText.length`, find the
next occurrence, record `[idx, idx + |Q|)`, and resume at `idx + 1`. -/
def scanGo (T Q : List Char) : Nat → Nat → List (Nat × Nat)
  | _, 0 => []
  | s, fuel + 1 =>
    if s < T.length then
      match indexOfFrom T Q s with
      | none => []
      | some idx => (idx, idx + Q.length) :: scanGo T Q (idx + 1) fuel
    else []

/-- All occurrences of `Q` in `T` found by the scan loop starting at
`searchStart`.  Each iteration advances the scan position by at least one,
so `T.length - s` units of fuel are enough for the guard
`searchStart < fullText.length` to fail before the fuel runs out. -/
def scanOccurrences (T Q : List Char) (s : Nat) : List (Nat × Nat) :=
  scanGo T Q s (T.length - s)

/-- The `spanOffsets` table: walk the span texts in order and record the
half-open logical range each one contributes, starting at `pos`. -/
def buildOffsets : List (List Char) → Nat → List SpanOff
  | [], _ => []
  | t :: ts, pos => ⟨pos, pos + t.length⟩ :: buildOffsets ts (pos + t.length)

/-- Translate one client rectangle to page coordinates
(`rect.top - pageRect.top`, `rect.left - pageRect.left`) and tag it with the
annotation's color. -/
def translateRect (pT pL : Int) (c : String) (r : Rect) : Overlay :=
  ⟨r.top - pT, r.left - pL, r.width, r.height, c⟩

/-- The span loop run for one occurrence `[idx, matchEnd)`: every span whose
offset range overlaps the occurrence and has a text node contributes the
client rectangles of the sub-range
`[max(0, idx - so.start), min(so.end - so.start, matchEnd - so.start))`
(natural-number subtraction is the `Math.max(0, ·)`-clamped difference),
translated to page coordinates. -/
def overlaysForMatch (items : List (Frag × SpanOff)) (idx matchEnd : Nat)
    (pT pL : Int) (c : String) : List Overlay :=
  (items.map (fun it =>
    if it.2.stop ≤ idx ∨ matchEnd ≤ it.2.start then []
    else
      match it.1.rects with
      | none => []
      | some f =>
        (f (idx - it.2.start)
           (min (it.2.stop - it.2.start) (matchEnd - it.2.start))).map
          (translateRect pT pL c))).flatten

/-- The Geometry Projector as §4.3 of the specification words it: keep
exactly the index entries whose half-open range overlaps the occurrence, in
table order; query each kept fragment's capability at
`max(0, occurrence.start - entry.start) .. min(entry.length,
occurrence.end - entry.start)` (computed over the integers); translate the
returned rectangles by subtracting the page bounding-box origin. -/
def projectOccurrenceSpec (items : List (Frag × SpanOff)) (idx matchEnd : Nat)
    (pT pL : Int) (c : String) : List Overlay :=
  ((items.filter (fun it =>
      decide (it.2.start < matchEnd ∧ idx < it.2.stop))).map (fun it =>
    match it.1.rects with
    | none => []
    | some f =>
      (f ((max 0 ((idx : Int) - it.2.start)).toNat)
         ((min ((it.2.stop : Int) - it.2.start)
               ((matchEnd : Int) - it.2.start)).toNat)).map
        (translateRect pT pL c))).flatten

/-- The body of the per-annotation loop of `computeOverlaysForPage`: no
quotation means no contribution; otherwise every occurrence of the quotation
contributes its span rectangles, in scan order. -/
def annotOverlaysFor (fullText : List Char) (items : List (Frag × SpanOff))
    (pT pL : Int) (a : Annot) : List Overlay :=
  match getAnnotExact a with
  | none => []
  | some q =>
    ((scanOccurrences fullText q 0).map (fun occ =>
      overlaysForMatch items occ.1 occ.2 pT pL (getAnnotColor a))).flatten

/-- The body of `computeOverlaysForPage` up to (and excluding) the `setPageOverlays`
call: `none` models the three early `return`s (no page element, no text
layer, zero spans); otherwise the full overlay list computed for the page. -/
def computeOverlaysForPage (page : Option PageData) (annots : List Annot) :
    Option (List Overlay) :=
  match page with
  | none => none
  | some pd =>
    match pd.textLayer with
    | none => none
    | some spans =>
      if spans.isEmpty then none
      else
        some ((annots.map
          (annotOverlaysFor ((spans.map Frag.text).flatten)
            (spans.zip (buildOffsets (spans.map Frag.text) 0))
            pd.pageTop pd.pageLeft)).flatten)

/-- Reading `pageOverlays[pageNumber] ?? []`. -/
def getPageOverlays (store : Store) (p : Nat) : List Overlay :=
  match store.find? (fun kv => kv.1 == p) with
  | some kv => kv.2
  | none => []

/-- The update `setPageOverlays((prev) => ({ ...prev, [pageNumber]: overlays }))`: JS
object-spread update, replacing the entry for `p` when present and appending
it otherwise. -/
def setPageOverlays (prev : Store) (p : Nat) (ovs : List Overlay) : Store :=
  if prev.any (fun kv => kv.1 == p) then
    prev.map (fun kv => if kv.1 == p then (kv.1, ovs) else kv)
  else prev ++ [(p, ovs)]

/-- One whole run of `computeOverlaysForPage` for page `p` including its
effect on the store: the early returns leave the store untouched, a
completed computation replaces page `p`'s entry wholesale. -/
def applyPass (page : Option PageData) (annots : List Annot) (prev : Store)
    (p : Nat) : Store :=
  match computeOverlaysForPage page annots with
  | none => prev
  | some ovs => setPageOverlays prev p ovs

/-- The synchronous part of the annotation-change effect: an empty
annotation list clears the whole store at once and schedules no timer
(`setPageOverlays({}); return`); a non-empty list leaves the store alone and
schedules the single debounce timer.  The boolean is `true` iff a timer was
scheduled. -/
def annotsEffect (annots : List Annot) (prev : Store) : Store × Bool :=
  if annots.isEmpty then ([], false) else (prev, true)

/-- The debounced body of the annotation-change effect: recompute overlays
for every page `1, …, numPages` in order. -/
def recomputeAllPages (numPages : Nat) (pages : Nat → Option PageData)
    (annots : List Annot) (store : Store) : Store :=
  (List.range' 1 numPages).foldl (fun st p => applyPass (pages p) annots st p) store

/-! ### Properties of the occurrence scan -/

theorem length_eq_zero_iff_nil {Q : List Char} : Q.length = 0 ↔ Q = [] := by
  cases Q <;> simp

theorem hitAt_of_matchesAt (T Q : List Char) (hQ : Q ≠ []) (i : Nat)
    (h : matchesAt T Q i) : hitAt T Q i := by
  refine ⟨?_, h⟩
  have hl := congrArg List.length h
  simp only [List.length_take, List.length_drop] at hl
  have hQ0 : Q.length ≠ 0 := fun h0 => hQ (length_eq_zero_iff_nil.mp h0)
  omega

theorem indexOfFromGo_some_ge (T Q : List Char) :
    ∀ fuel i j, indexOfFromGo T Q i fuel = some j → i ≤ j := by
  intro fuel
  induction fuel with
  | zero => intro i j h; simp [indexOfFromGo] at h
  | succ n ih =>
    intro i j h
    simp only [indexOfFromGo] at h
    split at h
    · split at h
      · exact Nat.le_of_eq (Option.some.inj h)
      · exact Nat.le_trans (Nat.le_succ i) (ih _ _ h)
    · exact absurd h (by simp)

theorem indexOfFromGo_some_hit (T Q : List Char) :
    ∀ fuel i j, indexOfFromGo T Q i fuel = some j → hitAt T Q j := by
  intro fuel
  induction fuel with
  | zero => intro i j h; simp [indexOfFromGo] at h
  | succ n ih =>
    intro i j h
    simp only [indexOfFromGo] at h
    split at h
    · split at h
      · cases Option.some.inj h
        next hb hm => exact ⟨hb, hm⟩
      · exact ih _ _ h
    · exact absurd h (by simp)

theorem indexOfFromGo_some_min (T Q : List Char) :
    ∀ fuel i j, indexOfFromGo T Q i fuel = some j →
      ∀ k, i ≤ k → k < j → ¬ hitAt T Q k := by
  intro fuel
  induction fuel with
  | zero => intro i j h; simp [indexOfFromGo] at h
  | succ n ih =>
    intro i j h k hik hkj hk
    simp only [indexOfFromGo] at h
    split at h
    · split at h
      · cases Option.some.inj h; omega
      · rcases Nat.eq_or_lt_of_le hik with rfl | hlt
        next hm => exact hm hk.2
        next hm => exact ih _ _ h k hlt hkj hk
    · exact absurd h (by simp)

theorem indexOfFromGo_none (T Q : List Char) :
    ∀ fuel i, T.length + 1 ≤ i + fuel → indexOfFromGo T Q i fuel = none →
      ∀ k, i ≤ k → ¬ hitAt T Q k := by
  intro fuel
  induction fuel with
  | zero =>
    intro i hfuel _ k hik hk
    have := hk.1
    omega
  | succ n ih =>
    intro i hfuel h k hik hk
    simp only [indexOfFromGo] at h
    split at h
    · split at h
      · exact absurd h (by simp)
      · rcases Nat.eq_or_lt_of_le hik with rfl | hlt
        next hm => exact hm hk.2
        next hm => exact ih _ (by omega) h k hlt hk
    · next hb =>
      have := hk.1
      omega

theorem indexOfFrom_some_ge (T Q : List Char) (i j : Nat)
    (h : indexOfFrom T Q i = some j) : i ≤ j :=
  indexOfFromGo_some_ge T Q _ i j h

theorem indexOfFrom_some_hit (T Q : List Char) (i j : Nat)
    (h : indexOfFrom T Q i = some j) : hitAt T Q j :=
  indexOfFromGo_some_hit T Q _ i j h

theorem indexOfFrom_some_min (T Q : List Char) (i j : Nat)
    (h : indexOfFrom T Q i = some j) :
    ∀ k, i ≤ k → k < j → ¬ hitAt T Q k :=
  indexOfFromGo_some_min T Q _ i j h

theorem indexOfFrom_none (T Q : List Char) (i : Nat)
    (h : indexOfFrom T Q i = none) : ∀ k, i ≤ k → ¬ hitAt T Q k := by
  intro k hik hk
  by_cases hi : i ≤ T.length + 1
  · exact indexOfFromGo_none T Q _ i (by omega) h k hik hk
  · have := hk.1
    omega

theorem indexOfFrom_of_hit (T Q : List Char) (i k : Nat) (hik : i ≤ k)
    (hk : hitAt T Q k) : ∃ j, indexOfFrom T Q i = some j ∧ j ≤ k := by
  cases hj : indexOfFrom T Q i with
  | none => exact absurd hk (indexOfFrom_none T Q i hj k hik)
  | some j =>
    refine ⟨j, rfl, ?_⟩
    by_contra hlt
    exact indexOfFrom_some_min T Q i j hj k hik (by omega) hk

theorem scanGo_sound (T Q : List Char) :
    ∀ fuel s p, p ∈ scanGo T Q s fuel →
      s ≤ p.1 ∧ hitAt T Q p.1 ∧ p.2 = p.1 + Q.length := by
  intro fuel
  induction fuel with
  | zero => intro s p hp; simp [scanGo] at hp
  | succ n ih =>
    intro s p hp
    simp only [scanGo] at hp
    split at hp
    · cases hidx : indexOfFrom T Q s with
      | none => rw [hidx] at hp; simp at hp
      | some idx =>
        rw [hidx] at hp
        rcases List.mem_cons.mp hp with rfl | htail
        · exact ⟨indexOfFrom_some_ge T Q s idx hidx,
            indexOfFrom_some_hit T Q s idx hidx, rfl⟩
        · obtain ⟨h1, h2, h3⟩ := ih _ p htail
          have := indexOfFrom_some_ge T Q s idx hidx
          exact ⟨by omega, h2, h3⟩
    · simp at hp

theorem scanGo_complete (T Q : List Char) (hQ : Q ≠ []) :
    ∀ fuel s k, T.length ≤ s + fuel → s ≤ k → hitAt T Q k →
      (k, k + Q.length) ∈ scanGo T Q s fuel := by
  have hQ0 : Q.length ≠ 0 := fun h0 => hQ (length_eq_zero_iff_nil.mp h0)
  intro fuel
  induction fuel with
  | zero =>
    intro s k hfuel hsk hk
    have := hk.1
    omega
  | succ n ih =>
    intro s k hfuel hsk hk
    simp only [scanGo]
    split
    · obtain ⟨j, hj, hjk⟩ := indexOfFrom_of_hit T Q s k hsk hk
      rw [hj]
      rcases Nat.eq_or_lt_of_le hjk with rfl | hlt
      · exact List.mem_cons_self _ _
      · have hjs := indexOfFrom_some_ge T Q s j hj
        exact List.mem_cons_of_mem _ (ih (j + 1) k (by omega) (by omega) hk)
    · have := hk.1
      omega

theorem scanGo_pairwise (T Q : List Char) :
    ∀ fuel s, (scanGo T Q s fuel).Pairwise (fun a b => a.1 < b.1) := by
  intro fuel
  induction fuel with
  | zero => intro s; simp [scanGo]
  | succ n ih =>
    intro s
    simp only [scanGo]
    split
    · cases hidx : indexOfFrom T Q s with
      | none => simp
      | some idx =>
        refine List.Pairwise.cons ?_ (ih (idx + 1))
        intro b hb
        have := (scanGo_sound T Q n (idx + 1) b hb).1
        omega
    · simp

theorem scanGo_length (T Q : List Char) :
    ∀ fuel s, (scanGo T Q s fuel).length ≤ T.length - s := by
  intro fuel
  induction fuel with
  | zero => intro s; simp [scanGo]
  | succ n ih =>
    intro s
    simp only [scanGo]
    split
    · cases hidx : indexOfFrom T Q s with
      | none => simp
      | some idx =>
        have h1 := indexOfFrom_some_ge T Q s idx hidx
        have h2 := (indexOfFrom_some_hit T Q s idx hidx).1
        have h3 := ih (idx + 1)
        next hs =>
          simp only [List.length_cons]
          omega
    · simp

/-- C1: for every page logical text `T` and non-empty quotation `Q` the
scan returns exactly the left-to-right occurrences that resume at
match-start + 1: every returned range `[s, e)` satisfies `T[s:e] = Q` and
`e = s + |Q|`, the starts are strictly increasing, every (in particular
every overlapping) occurrence position is reported, and quotation `"aa"`
against text `"aaa"` yields `[0,2)` and `[1,3)`. -/
theorem quote_locator_scan_correct (T Q : List Char) (hQ : Q ≠ []) :
    (∀ p ∈ scanOccurrences T Q 0,
        (T.drop p.1).take Q.length = Q ∧ p.2 = p.1 + Q.length) ∧
    (scanOccurrences T Q 0).Pairwise (fun a b => a.1 < b.1) ∧
    (∀ i, (T.drop i).take Q.length = Q → (i, i + Q.length) ∈ scanOccurrences T Q 0) ∧
    scanOccurrences "aaa".toList "aa".toList 0 = [(0, 2), (1, 3)] := by
  refine ⟨?_, ?_, ?_, by decide⟩
  · intro p hp
    obtain ⟨_, h2, h3⟩ := scanGo_sound T Q _ 0 p hp
    exact ⟨h2.2, h3⟩
  · exact scanGo_pairwise T Q _ 0
  · intro i hi
    exact scanGo_complete T Q hQ _ 0 i (by omega) (Nat.zero_le i)
      (hitAt_of_matchesAt T Q hQ i hi)

theorem quote_locator_scan_correct_witness :
    ("aa".toList ≠ ([] : List Char)) ∧
      scanOccurrences "aaa".toList "aa".toList 0 = [(0, 2), (1, 3)] :=
  ⟨by decide, (quote_locator_scan_correct "aaa".toList "aa".toList (by decide)).2.2.2⟩

/-- C10: the occurrence-scan loop terminates: the number of iterations (one
reported occurrence each) is bounded by `|T| - searchStart` because each
match starts at or after the scan position and the loop resumes at
match-start + 1, and the loop body never runs once the scan position has
reached `|T|`. -/
theorem scan_loop_terminates (T Q : List Char) (s : Nat) :
    (scanOccurrences T Q s).length ≤ T.length - s ∧
    (∀ j, indexOfFrom T Q s = some j → s ≤ j) ∧
    (T.length ≤ s → scanOccurrences T Q s = []) := by
  refine ⟨scanGo_length T Q _ s, fun j hj => indexOfFrom_some_ge T Q s j hj, ?_⟩
  intro hs
  have h0 : T.length - s = 0 := by omega
  simp [scanOccurrences, h0, scanGo]

/-! ### Properties of the fragment index builder -/

theorem buildOffsets_length (texts : List (List Char)) :
    ∀ pos, (buildOffsets texts pos).length = texts.length := by
  induction texts with
  | nil => intro pos; rfl
  | cons t ts ih => intro pos; simp [buildOffsets, ih]

theorem buildOffsets_head? (texts : List (List Char)) (pos : Nat) :
    (buildOffsets texts pos).head?
      = texts.head?.map (fun t => ⟨pos, pos + t.length⟩) := by
  cases texts <;> rfl

theorem buildOffsets_start_ge (texts : List (List Char)) :
    ∀ pos, ∀ e ∈ buildOffsets texts pos, pos ≤ e.start ∧ e.start ≤ e.stop := by
  induction texts with
  | nil => intro pos e he; simp [buildOffsets] at he
  | cons t ts ih =>
    intro pos e he
    simp only [buildOffsets, List.mem_cons] at he
    rcases he with rfl | he
    · exact ⟨Nat.le_refl _, Nat.le_add_right _ _⟩
    · have := ih (pos + t.length) e he
      exact ⟨by omega, this.2⟩

theorem buildOffsets_chain (texts : List (List Char)) :
    ∀ pos, List.Chain' (fun a b => a.stop = b.start) (buildOffsets texts pos) := by
  induction texts with
  | nil => intro pos; simp [buildOffsets]
  | cons t ts ih =>
    intro pos
    simp only [buildOffsets]
    rw [List.chain'_cons']
    refine ⟨?_, ih (pos + t.length)⟩
    intro y hy
    cases ts with
    | nil => simp [buildOffsets] at hy
    | cons u us =>
      simp only [buildOffsets, List.head?_cons, Option.mem_def,
        Option.some.injEq] at hy
      subst hy
      rfl

theorem buildOffsets_pairwise (texts : List (List Char)) :
    ∀ pos, (buildOffsets texts pos).Pairwise (fun a b => a.stop ≤ b.start) := by
  induction texts with
  | nil => intro pos; simp [buildOffsets]
  | cons t ts ih =>
    intro pos
    simp only [buildOffsets]
    refine List.Pairwise.cons ?_ (ih (pos + t.length))
    intro b hb
    exact (buildOffsets_start_ge ts (pos + t.length) b hb).1

theorem buildOffsets_sum (texts : List (List Char)) :
    ∀ pos,
      ((buildOffsets texts pos).map (fun e => e.stop - e.start)).sum
        = texts.flatten.length := by
  induction texts with
  | nil => intro pos; simp [buildOffsets]
  | cons t ts ih =>
    intro pos
    simp only [buildOffsets, List.map_cons, List.sum_cons, ih,
      List.flatten_cons, List.length_append]
    omega

theorem buildOffsets_zip (texts : List (List Char)) :
    ∀ pos, ∀ pr ∈ (buildOffsets texts pos).zip texts,
      pr.1.stop = pr.1.start + pr.2.length := by
  induction texts with
  | nil => intro pos pr hpr; simp at hpr
  | cons t ts ih =>
    intro pos pr hpr
    simp only [buildOffsets, List.zip_cons_cons, List.mem_cons] at hpr
    rcases hpr with rfl | hpr
    · rfl
    · exact ih _ pr hpr

/-- C3: the fragment index table has one entry per fragment in fragment
order; entries are contiguous (each entry starts where the previous one
stops, the first starts at 0) and non-overlapping; entry `i` has exactly the
length of fragment `i` (so an empty fragment contributes a zero-length range
while occupying its slot); and the range lengths sum to the length of the
concatenated logical text. -/
theorem fragment_index_builder_invariants (texts : List (List Char)) :
    (buildOffsets texts 0).length = texts.length ∧
    List.Chain' (fun a b => a.stop = b.start) (buildOffsets texts 0) ∧
    (buildOffsets texts 0).Pairwise (fun a b => a.stop ≤ b.start) ∧
    (∀ e ∈ buildOffsets texts 0, e.start ≤ e.stop) ∧
    ((buildOffsets texts 0).map (fun e => e.stop - e.start)).sum
      = texts.flatten.length ∧
    (∀ pr ∈ (buildOffsets texts 0).zip texts,
      pr.1.stop = pr.1.start + pr.2.length) ∧
    (∀ e, (buildOffsets texts 0).head? = some e → e.start = 0) := by
  refine ⟨buildOffsets_length texts 0, buildOffsets_chain texts 0,
    buildOffsets_pairwise texts 0,
    fun e he => (buildOffsets_start_ge texts 0 e he).2,
    buildOffsets_sum texts 0, buildOffsets_zip texts 0, ?_⟩
  intro e he
  rw [buildOffsets_head?] at he
  cases texts with
  | nil => simp at he
  | cons t ts =>
    simp only [List.head?_cons, Option.map_some', Option.some.injEq] at he
    subst he
    rfl

/-! ### Properties of the geometry projector -/

theorem overlaysForMatch_cons (it : Frag × SpanOff) (rest : List (Frag × SpanOff))
    (idx matchEnd : Nat) (pT pL : Int) (c : String) :
    overlaysForMatch (it :: rest) idx matchEnd pT pL c
      = (if it.2.stop ≤ idx ∨ matchEnd ≤ it.2.start then []
         else
           match it.1.rects with
           | none => []
           | some f =>
             (f (idx - it.2.start)
                (min (it.2.stop - it.2.start) (matchEnd - it.2.start))).map
               (translateRect pT pL c))
        ++ overlaysForMatch rest idx matchEnd pT pL c := by
  simp [overlaysForMatch]

theorem projectOccurrenceSpec_cons (it : Frag × SpanOff) (rest : List (Frag × SpanOff))
    (idx matchEnd : Nat) (pT pL : Int) (c : String) :
    projectOccurrenceSpec (it :: rest) idx matchEnd pT pL c
      = (if it.2.start < matchEnd ∧ idx < it.2.stop then
           match it.1.rects with
           | none => []
           | some f =>
             (f ((max 0 ((idx : Int) - it.2.start)).toNat)
                ((min ((it.2.stop : Int) - it.2.start)
                      ((matchEnd : Int) - it.2.start)).toNat)).map
               (translateRect pT pL c)
         else [])
        ++ projectOccurrenceSpec rest idx matchEnd pT pL c := by
  by_cases h : it.2.start < matchEnd ∧ idx < it.2.stop
  · simp only [projectOccurrenceSpec, List.filter_cons, decide_eq_true_eq, h,
      and_self, if_true, List.map_cons, List.flatten_cons]
  · simp only [projectOccurrenceSpec, List.filter_cons, decide_eq_true_eq, h,
      if_false, if_neg h, List.nil_append]

theorem overlaysForMatch_eq_spec (items : List (Frag × SpanOff))
    (idx matchEnd : Nat) (pT pL : Int) (c : String) :
    overlaysForMatch items idx matchEnd pT pL c
      = projectOccurrenceSpec items idx matchEnd pT pL c := by
  induction items with
  | nil => rfl
  | cons it rest ih =>
    rw [overlaysForMatch_cons, projectOccurrenceSpec_cons, ih]
    congr 1
    by_cases hov : it.2.stop ≤ idx ∨ matchEnd ≤ it.2.start
    · rw [if_pos hov, if_neg (by omega)]
    · push_neg at hov
      rw [if_neg (by omega), if_pos (by omega)]
      cases hr : it.1.rects with
      | none => rfl
      | some f =>
        have h1 : (max 0 ((idx : Int) - it.2.start)).toNat = idx - it.2.start := by
          omega
        have h2 : ((min ((it.2.stop : Int) - it.2.start)
              ((matchEnd : Int) - it.2.start)).toNat)
            = min (it.2.stop - it.2.start) (matchEnd - it.2.start) := by
          omega
        rw [h1, h2]

/-- First fragment of the specification's projector scenario, with a
rectangle capability that returns one rectangle recording its requested
sub-range in `top`/`left` and the marker `0` in `width`/`height`. -/
def demoFragA : Frag :=
  ⟨"The quick ".toList, some (fun a b => [⟨(a : Int), (b : Int), 0, 0⟩])⟩

/-- Second fragment of the scenario, marker `1`. -/
def demoFragB : Frag :=
  ⟨"brown fox".toList, some (fun a b => [⟨(a : Int), (b : Int), 1, 1⟩])⟩

/-- The scenario's span list. -/
def demoSpans : List Frag := [demoFragA, demoFragB]

/-- The scenario's logical page text, `"The quick brown fox"`. -/
def demoText : List Char := (demoSpans.map Frag.text).flatten

/-- The scenario's fragment/offset table. -/
def demoItems : List (Frag × SpanOff) :=
  demoSpans.zip (buildOffsets (demoSpans.map Frag.text) 0)

/-- C2: the span loop of `computeOverlaysForPage` implements the Geometry
Projector of §4.3 exactly: it keeps precisely the index entries whose
half-open range overlaps the occurrence, in table order; queries each kept
fragment's rectangle capability at the sub-range
`max(0, start - entry.start) .. min(entry.length, end - entry.start)`; and
translates every returned rectangle by subtracting the page bounding-box
origin.  In the specification's scenario (fragments `"The quick "` and
`"brown fox"`, quotation `"quick brown"`) the occurrence is `[4, 15)` and
the requested sub-ranges (recorded by the demo capabilities in the
`top`/`left` fields) are `[4, 10)` in fragment 1 and `[0, 5)` in fragment 2,
with no rectangle attributed to any other fragment. -/
theorem geometry_projector_correct :
    (∀ (items : List (Frag × SpanOff)) (idx matchEnd : Nat) (pT pL : Int)
       (c : String),
      overlaysForMatch items idx matchEnd pT pL c
        = projectOccurrenceSpec items idx matchEnd pT pL c) ∧
    scanOccurrences demoText "quick brown".toList 0 = [(4, 15)] ∧
    overlaysForMatch demoItems 4 15 0 0 "c"
      = [⟨4, 10, 0, 0, "c"⟩, ⟨0, 5, 1, 1, "c"⟩] :=
  ⟨overlaysForMatch_eq_spec, by decide, by decide⟩

/-- C9: a touched fragment whose rectangle capability is unavailable (no
text node) is skipped without failing the occurrence: removing it from the
span table does not change the produced overlays, so the other touched
fragments still contribute their rectangles. -/
theorem fragment_without_rects_skipped (pre post : List (Frag × SpanOff))
    (fr : Frag) (so : SpanOff) (idx matchEnd : Nat) (pT pL : Int) (c : String)
    (h : fr.rects = none) :
    overlaysForMatch (pre ++ (fr, so) :: post) idx matchEnd pT pL c
      = overlaysForMatch (pre ++ post) idx matchEnd pT pL c := by
  simp only [overlaysForMatch, List.map_append, List.map_cons,
    List.flatten_append, List.flatten_cons, h, ite_self, List.nil_append]

theorem fragment_without_rects_skipped_witness :
    (Frag.mk "zz".toList none).rects = none ∧
    overlaysForMatch [(demoFragA, ⟨0, 10⟩), (⟨"zz".toList, none⟩, ⟨10, 12⟩)]
        4 11 0 0 "c"
      = overlaysForMatch [(demoFragA, ⟨0, 10⟩)] 4 11 0 0 "c" :=
  ⟨rfl,
    fragment_without_rects_skipped [(demoFragA, ⟨0, 10⟩)] [] ⟨"zz".toList, none⟩
      ⟨10, 12⟩ 4 11 0 0 "c" rfl⟩

/-! ### Properties of the overlay store -/

theorem find?_map_set (prev : Store) (p : Nat) (ovs : List Overlay) :
    (prev.map (fun kv => if kv.1 == p then (kv.1, ovs) else kv)).find?
        (fun kv => kv.1 == p)
      = (prev.find? (fun kv => kv.1 == p)).map (fun kv => (kv.1, ovs)) := by
  induction prev with
  | nil => rfl
  | cons kv rest ih =>
    obtain ⟨k1, k2⟩ := kv
    by_cases hk : k1 = p
    · subst hk
      simp only [List.map_cons, List.find?_cons, beq_self_eq_true, if_true,
        Option.map_some']
    · have hb : (k1 == p) = false := by simp [hk]
      simp only [List.map_cons, List.find?_cons, hb, Bool.false_eq_true,
        if_false, Option.map_some', ih]

theorem find?_map_set_ne (prev : Store) (p q : Nat) (ovs : List Overlay)
    (hq : q ≠ p) :
    (prev.map (fun kv => if kv.1 == p then (kv.1, ovs) else kv)).find?
        (fun kv => kv.1 == q)
      = prev.find? (fun kv => kv.1 == q) := by
  induction prev with
  | nil => rfl
  | cons kv rest ih =>
    obtain ⟨k1, k2⟩ := kv
    by_cases hk : k1 = p
    · subst hk
      have hkq : (k1 == q) = false := by simp [Ne.symm hq]
      simp only [List.map_cons, List.find?_cons, beq_self_eq_true, if_true,
        hkq, Bool.false_eq_true, if_false, ih]
    · have hb : (k1 == p) = false := by simp [hk]
      by_cases hkq : k1 = q
      · subst hkq
        simp only [List.map_cons, List.find?_cons, hb, Bool.false_eq_true,
          if_false, beq_self_eq_true, if_true]
      · have hq2 : (k1 == q) = false := by simp [hkq]
        simp only [List.map_cons, List.find?_cons, hb, hq2,
          Bool.false_eq_true, if_false, ih]

theorem getPageOverlays_set_self (prev : Store) (p : Nat) (ovs : List Overlay) :
    getPageOverlays (setPageOverlays prev p ovs) p = ovs := by
  unfold setPageOverlays
  split
  · next hany =>
    unfold getPageOverlays
    rw [find?_map_set]
    obtain ⟨x, hx, hxp⟩ := List.any_eq_true.mp hany
    cases hfind : prev.find? (fun kv => kv.1 == p) with
    | none => exact absurd hxp (by simpa using List.find?_eq_none.mp hfind x hx)
    | some kv => rfl
  · next hany =>
    unfold getPageOverlays
    rw [List.find?_append]
    have hnone : prev.find? (fun kv => kv.1 == p) = none := by
      rw [List.find?_eq_none]
      intro x hx
      simp only [Bool.not_eq_true]
      by_contra hxp
      exact hany (List.any_eq_true.mpr ⟨x, hx, by simpa using hxp⟩)
    simp [hnone]

theorem getPageOverlays_set_other (prev : Store) (p q : Nat) (ovs : List Overlay)
    (hq : q ≠ p) :
    getPageOverlays (setPageOverlays prev p ovs) q = getPageOverlays prev q := by
  unfold setPageOverlays
  split
  · unfold getPageOverlays
    rw [find?_map_set_ne prev p q ovs hq]
  · unfold getPageOverlays
    rw [List.find?_append]
    have h2 : List.find? (fun kv => kv.1 == q) [(p, ovs)] = none := by
      simp [Ne.symm hq]
    simp [h2]

/-- C7: `setPageOverlays((prev) => ({ ...prev, [p]: overlays }))` is an
atomic wholesale replacement scoped to page `p`: afterwards page `p` reads
exactly the new sequence whatever was stored before (no merging), and every
other page reads exactly what it read before. -/
theorem overlay_store_replace_scoped (prev : Store) (p : Nat)
    (ovs : List Overlay) :
    getPageOverlays (setPageOverlays prev p ovs) p = ovs ∧
    ∀ q, q ≠ p →
      getPageOverlays (setPageOverlays prev p ovs) q = getPageOverlays prev q :=
  ⟨getPageOverlays_set_self prev p ovs,
    fun q hqp => getPageOverlays_set_other prev p q ovs hqp⟩

/-! ### The recomputation pass and its early returns -/

theorem compute_none_iff (page : Option PageData) (annots : List Annot) :
    computeOverlaysForPage page annots = none
      ↔ (page = none ∨ ∃ pd, page = some pd ∧
          (pd.textLayer = none ∨ pd.textLayer = some [])) := by
  cases page with
  | none => simp [computeOverlaysForPage]
  | some pd =>
    cases htl : pd.textLayer with
    | none => simp [computeOverlaysForPage, htl]
    | some spans =>
      cases spans with
      | nil => simp [computeOverlaysForPage, htl]
      | cons s rest => simp [computeOverlaysForPage, htl]

/-- C4 counterexample: a page whose element is missing but whose overlay
store entry holds rectangles from an earlier computation: the pass leaves
the stale rectangles in place, so the page's overlay set is not empty after
the pass. -/
theorem pass_without_layout_keeps_stale_overlays :
    getPageOverlays (applyPass none [] [(1, [⟨0, 0, 5, 5, "c"⟩])] 1) 1
        = [⟨0, 0, 5, 5, "c"⟩] ∧
    getPageOverlays (applyPass none [] [(1, [⟨0, 0, 5, 5, "c"⟩])] 1) 1 ≠ [] :=
  ⟨rfl, by decide⟩

/-- C4 (amended): if a recomputation pass runs for a page that has no
textual content or is not yet laid out (no page element, no text layer, or
zero text fragments), the pass returns early without writing the overlay
store, leaving that page's overlay set unchanged (in particular, a page
never successfully computed stays empty). -/
theorem pass_without_layout_leaves_overlays (page : Option PageData)
    (annots : List Annot) (prev : Store) (p : Nat)
    (h : page = none ∨ ∃ pd, page = some pd ∧
      (pd.textLayer = none ∨ pd.textLayer = some [])) :
    applyPass page annots prev p = prev := by
  unfold applyPass
  rw [(compute_none_iff page annots).mpr h]

theorem pass_without_layout_leaves_overlays_witness :
    ((none : Option PageData) = none ∨ ∃ pd, (none : Option PageData) = some pd ∧
      (pd.textLayer = none ∨ pd.textLayer = some [])) ∧
    applyPass none [] [(1, [⟨0, 0, 5, 5, "c"⟩])] 1 = [(1, [⟨0, 0, 5, 5, "c"⟩])] :=
  ⟨Or.inl rfl,
    pass_without_layout_leaves_overlays none [] [(1, [⟨0, 0, 5, 5, "c"⟩])] 1
      (Or.inl rfl)⟩

theorem no_occurrence_scan_nil (T Q : List Char)
    (h : ∀ i, ¬ matchesAt T Q i) : scanOccurrences T Q 0 = [] := by
  unfold scanOccurrences
  cases hf : T.length - 0 with
  | zero => rfl
  | succ n =>
    simp only [scanGo]
    split
    · cases hidx : indexOfFrom T Q 0 with
      | none => rfl
      | some idx => exact absurd (indexOfFrom_some_hit T Q 0 idx hidx).2 (h idx)
    · rfl

theorem annotOverlaysFor_of_noscan (fullText : List Char)
    (items : List (Frag × SpanOff)) (pT pL : Int) (a : Annot)
    (h : ∀ q, getAnnotExact a = some q → scanOccurrences fullText q 0 = []) :
    annotOverlaysFor fullText items pT pL a = [] := by
  unfold annotOverlaysFor
  cases hq : getAnnotExact a with
  | none => rfl
  | some q => simp [h q hq]

/-- C5: when the text layer is present and non-empty, a quotation that does
not occur in the page's logical text produces an empty occurrence list (no
error), and when no annotation's quotation matches at all the pass still
completes and replaces the page's overlay set with the empty sequence, so
rectangles from an earlier computation do not remain. -/
theorem no_match_pass_empties_page (pd : PageData) (spans : List Frag)
    (annots : List Annot) (prev : Store) (p : Nat)
    (hl : pd.textLayer = some spans) (hne : spans ≠ [])
    (hnom : ∀ a ∈ annots, ∀ q, getAnnotExact a = some q →
      ∀ i, ¬ matchesAt ((spans.map Frag.text).flatten) q i) :
    (∀ a ∈ annots, ∀ q, getAnnotExact a = some q →
      scanOccurrences ((spans.map Frag.text).flatten) q 0 = []) ∧
    computeOverlaysForPage (some pd) annots = some [] ∧
    getPageOverlays (applyPass (some pd) annots prev p) p = [] := by
  have hscan : ∀ a ∈ annots, ∀ q, getAnnotExact a = some q →
      scanOccurrences ((spans.map Frag.text).flatten) q 0 = [] :=
    fun a ha q hq => no_occurrence_scan_nil _ q (hnom a ha q hq)
  have hcomp : computeOverlaysForPage (some pd) annots = some [] := by
    simp only [computeOverlaysForPage, hl]
    rw [if_neg (by simpa [List.isEmpty_iff] using hne), Option.some.injEq]
    rw [List.flatten_eq_nil_iff]
    intro l hl2
    rw [List.mem_map] at hl2
    obtain ⟨a, ha, rfl⟩ := hl2
    exact annotOverlaysFor_of_noscan _ _ _ _ a (hscan a ha)
  refine ⟨hscan, hcomp, ?_⟩
  unfold applyPass
  rw [hcomp]
  exact getPageOverlays_set_self prev p []

/-- A concrete annotation whose quotation is `"zzz"`. -/
def demoAnnotZ : Annot :=
  ⟨"a1", "u", none,
    some [⟨"s", some [⟨"TextQuoteSelector", some "zzz".toList⟩]⟩]⟩

theorem no_match_pass_empties_page_witness :
    (PageData.mk (some [⟨"abc".toList, none⟩]) 0 0).textLayer
        = some [⟨"abc".toList, none⟩] ∧
    ([(⟨"abc".toList, none⟩ : Frag)] ≠ []) ∧
    getPageOverlays
        (applyPass (some (PageData.mk (some [⟨"abc".toList, none⟩]) 0 0))
          [demoAnnotZ] [(2, [⟨0, 0, 5, 5, "c"⟩])] 2) 2 = [] := by
  refine ⟨rfl, by simp, ?_⟩
  refine (no_match_pass_empties_page _ [⟨"abc".toList, none⟩] [demoAnnotZ]
    [(2, [⟨0, 0, 5, 5, "c"⟩])] 2 rfl (by simp) ?_).2.2
  intro a ha q hq i hm
  rw [List.mem_singleton] at ha
  subst ha
  have hqz : q = "zzz".toList := by
    have h0 : getAnnotExact demoAnnotZ = some ("zzz".toList) := rfl
    exact (Option.some.inj (h0.symm.trans hq)).symm
  subst hqz
  have hb := (hitAt_of_matchesAt _ _ (by decide) i hm).1
  have h3 : ("zzz".toList).length = 3 := rfl
  have h3' : (([(⟨"abc".toList, none⟩ : Frag)].map Frag.text).flatten).length = 3 := rfl
  rw [h3, h3'] at hb
  have hi : i = 0 := by omega
  subst hi
  exact absurd hm (by decide)

/-! ### The annotation-change effect -/

theorem foldl_applyPass_not_mem (annots : List Annot)
    (pages : Nat → Option PageData) :
    ∀ (l : List Nat) (st : Store) (q : Nat), q ∉ l →
      getPageOverlays
          (l.foldl (fun st p => applyPass (pages p) annots st p) st) q
        = getPageOverlays st q := by
  intro l
  induction l with
  | nil => intro st q _; rfl
  | cons p rest ih =>
    intro st q hq
    simp only [List.foldl_cons]
    rw [ih _ q (fun h => hq (List.mem_cons_of_mem _ h))]
    unfold applyPass
    cases computeOverlaysForPage (pages p) annots with
    | none => rfl
    | some ovs =>
      exact getPageOverlays_set_other st p q ovs
        (fun h => hq (h ▸ List.mem_cons_self _ _))

theorem recomputeAllPages_get (numPages : Nat) (pages : Nat → Option PageData)
    (annots : List Annot) (st : Store) (p : Nat)
    (hp : p ∈ List.range' 1 numPages) (ovs : List Overlay)
    (hc : computeOverlaysForPage (pages p) annots = some ovs) :
    getPageOverlays (recomputeAllPages numPages pages annots st) p = ovs := by
  obtain ⟨l1, l2, hsplit⟩ := List.append_of_mem hp
  have hnodup := List.nodup_range' 1 numPages
  rw [hsplit] at hnodup
  have hpl2 : p ∉ l2 := (List.nodup_cons.mp hnodup.of_append_right).1
  unfold recomputeAllPages
  rw [hsplit, List.foldl_append]
  simp only [List.foldl_cons]
  rw [foldl_applyPass_not_mem annots pages l2 _ p hpl2]
  unfold applyPass
  rw [hc]
  exact getPageOverlays_set_self _ p ovs

/-- C6: when the annotation set becomes empty the whole overlay store is
cleared synchronously and no debounce timer is scheduled (every page then
reads the empty overlay sequence); when it becomes non-empty the store is
untouched synchronously, one shared debounce timer is scheduled, and the
debounced recomputation visits every currently-known page `1..N`, storing
for each page exactly the overlays its recomputation produced. -/
theorem annotation_change_effect (annots : List Annot) (prev : Store)
    (numPages : Nat) (pages : Nat → Option PageData) :
    (annots = [] →
      annotsEffect annots prev = ([], false) ∧
      ∀ p, getPageOverlays (annotsEffect annots prev).1 p = []) ∧
    (annots ≠ [] →
      annotsEffect annots prev = (prev, true) ∧
      ∀ p ∈ List.range' 1 numPages, ∀ ovs,
        computeOverlaysForPage (pages p) annots = some ovs →
          getPageOverlays (recomputeAllPages numPages pages annots prev) p
            = ovs) := by
  constructor
  · intro h
    subst h
    exact ⟨rfl, fun p => rfl⟩
  · intro h
    refine ⟨?_, fun p hp ovs hc =>
      recomputeAllPages_get numPages pages annots prev p hp ovs hc⟩
    unfold annotsEffect
    rw [if_neg (by simpa [List.isEmpty_iff] using h)]

theorem annotation_change_effect_witness :
    annotsEffect [] [(1, [⟨0, 0, 5, 5, "c"⟩])] = ([], false) :=
  ((annotation_change_effect [] [(1, [⟨0, 0, 5, 5, "c"⟩])] 0
    (fun _ => none)).1 rfl).1

/-! ### Quotation extraction -/

theorem findExactInSelectors_eq (sels : List Selector) :
    findExactInSelectors sels
      = sels.findSome? (fun s =>
          match s.exact with
          | some e =>
            if s.type = "TextQuoteSelector" ∧ e ≠ [] then some e else none
          | none => none) := by
  induction sels with
  | nil => rfl
  | cons s rest ih =>
    cases hse : s.exact with
    | none => simp only [findExactInSelectors, hse, List.findSome?_cons, ih]
    | some e =>
      by_cases h : s.type = "TextQuoteSelector" ∧ e ≠ []
      · simp only [findExactInSelectors, hse, List.findSome?_cons, if_pos h]
      · simp only [findExactInSelectors, hse, List.findSome?_cons, if_neg h, ih]

theorem findExactInTargets_eq (ts : List Target) :
    findExactInTargets ts
      = (ts.flatMap (fun t => t.selector.getD [])).findSome? (fun s =>
          match s.exact with
          | some e =>
            if s.type = "TextQuoteSelector" ∧ e ≠ [] then some e else none
          | none => none) := by
  induction ts with
  | nil => rfl
  | cons t rest ih =>
    cases hts : t.selector with
    | none =>
      simp only [findExactInTargets, hts, List.flatMap_cons, Option.getD_none,
        List.nil_append, ih]
    | some sels =>
      simp only [findExactInTargets, hts, List.flatMap_cons, Option.getD_some,
        List.findSome?_append, findExactInSelectors_eq]
      cases hf : sels.findSome? (fun s =>
          match s.exact with
          | some e =>
            if s.type = "TextQuoteSelector" ∧ e ≠ [] then some e else none
          | none => none) with
      | none => simp [Option.or, ih]
      | some e => simp [Option.or]

theorem findExactInSelectors_ne_nil (sels : List Selector) :
    ∀ q, findExactInSelectors sels = some q → q ≠ [] := by
  induction sels with
  | nil => intro q h; exact absurd h (by simp [findExactInSelectors])
  | cons s rest ih =>
    intro q h
    cases hse : s.exact with
    | none =>
      simp only [findExactInSelectors, hse] at h
      exact ih q h
    | some e =>
      simp only [findExactInSelectors, hse] at h
      by_cases hc : s.type = "TextQuoteSelector" ∧ e ≠ []
      · rw [if_pos hc] at h
        cases Option.some.inj h
        exact hc.2
      · rw [if_neg hc] at h
        exact ih q h

theorem findExactInTargets_ne_nil (ts : List Target) :
    ∀ q, findExactInTargets ts = some q → q ≠ [] := by
  induction ts with
  | nil => intro q h; exact absurd h (by simp [findExactInTargets])
  | cons t rest ih =>
    intro q h
    cases hts : t.selector with
    | none =>
      simp only [findExactInTargets, hts] at h
      exact ih q h
    | some sels =>
      simp only [findExactInTargets, hts] at h
      cases hf : findExactInSelectors sels with
      | none =>
        rw [hf] at h
        have h2 : findExactInTargets rest = some q := h
        exact ih q h2
      | some e =>
        rw [hf] at h
        have h2 : some e = some q := h
        cases Option.some.inj h2
        exact findExactInSelectors_ne_nil sels q hf

/-- C8: quotation extraction returns the first selector with type
`'TextQuoteSelector'` and a truthy (present, non-empty) `exact` string,
scanning the annotation's targets and their selectors in order (the nested
loops equal a first-hit search over the flattened selector list); an
extracted quotation is never the empty string (an empty `exact` is falsy
and skipped, so the degenerate empty quotation is never scanned for); and
an annotation without such a selector yields no quotation and contributes
zero occurrences and zero rectangles. -/
theorem quotation_extraction_correct (a : Annot) :
    getAnnotExact a
      = ((a.target.getD []).flatMap (fun t => t.selector.getD [])).findSome?
          (fun s =>
            match s.exact with
            | some e =>
              if s.type = "TextQuoteSelector" ∧ e ≠ [] then some e else none
            | none => none) ∧
    (∀ q, getAnnotExact a = some q → q ≠ []) ∧
    (getAnnotExact a = none →
      ∀ fullText items pT pL, annotOverlaysFor fullText items pT pL a = []) := by
  refine ⟨?_, ?_, ?_⟩
  · cases hta : a.target with
    | none => simp [getAnnotExact, hta]
    | some ts => simp [getAnnotExact, hta, findExactInTargets_eq]
  · intro q hq
    cases hta : a.target with
    | none => rw [getAnnotExact, hta] at hq; exact absurd hq (by simp)
    | some ts =>
      rw [getAnnotExact, hta] at hq
      exact findExactInTargets_ne_nil ts q hq
  · intro h fullText items pT pL
    unfold annotOverlaysFor
    rw [h]
